import Mathlib

/-!
# Verification development for `golang-trial`

Two parts of the repository are embedded here:

* `cmd/dynamicticker/main.go` : the background loop of `DynamicTicker.start`,
  as a transition function on an explicit loop state;
* `gossh.go` : `SplitScriptLines`, as a pure function on byte strings.

Durations (`time.Duration`) and instants (`time.Time`) are integers counting
nanoseconds.  The loop only compares durations, so no overflow is involved.
-/

namespace DynamicTicker

/-! ## The timer primitive (`time.Ticker`) as far as `start` uses it -/

/-- One second as a `time.Duration`. -/
def Second : Int := 1000000000

/-- A `time.Ticker` value: its period, the instant it was created, and whether
`Stop` has been called on it. -/
structure Ticker where
  period : Int
  created : Int
  stopped : Bool
deriving DecidableEq, Repr

/-- `time.NewTicker(d)`: panics (`none`) on a non-positive period, otherwise a
fresh unstopped ticker whose phase starts at the instant of the call. -/
def NewTicker (d : Int) (now : Int) : Option Ticker :=
  if d ≤ 0 then none else some { period := d, created := now, stopped := false }

/-- `ticker.Stop()`: turns the ticker off; stopping a stopped ticker changes
nothing. -/
def Ticker.Stop (tk : Ticker) : Ticker := { tk with stopped := true }

/-- The instant of the first tick a ticker delivers strictly after `now`
(ticks of a ticker created at `c` with period `p` fall on `c + p`, `c + 2p`, ...);
a stopped ticker delivers none. -/
def Ticker.nextDue (tk : Ticker) (now : Int) : Option Int :=
  if tk.stopped then none
  else some (tk.created + ((now - tk.created) / tk.period + 1) * tk.period)

/-! ## The loop state and its events -/

/-- The lines `start` writes with `log.Println`. -/
inductive LogLine where
  | starting (interval : Int)
  | tick (t : Int)
  | closed
  | adjusted (ic : Int)
  | unchanged (interval : Int)
deriving DecidableEq, Repr

/-- What `start` works on: the `Interval` field of the receiver, the local
variable `ticker`, every ticker that variable referred to earlier (newest
first), the arguments of the callbacks dispatched with `go d.Fn(t)`, and the
log. -/
structure State where
  Interval : Int
  ticker : Ticker
  retired : List Ticker
  spawned : List Int
  log : List LogLine
deriving DecidableEq, Repr

/-- The two cases of the `select`: a receive `t, ok` from `ticker.C`, and a
receive `ic` from `d.IntervalChange` taking place at instant `now`.  Which
events the runtime offers is left open: `step` accepts either event in any
state, so what holds for all event lists holds for every run of the loop. -/
inductive Event where
  | tick (t : Int) (ok : Bool)
  | change (ic : Int) (now : Int)
deriving DecidableEq, Repr

/-- One pass through the body of the `for` loop (lines 60-82); `none` stands
for a panic. -/
def step (s : State) : Event → Option State
  | Event.tick t ok =>
    if ok then
      some { s with log := s.log ++ [LogLine.tick t], spawned := s.spawned ++ [t] }
    else
      some { s with log := s.log ++ [LogLine.closed] }
  | Event.change ic now =>
    if ic ≠ s.Interval then
      let s1 := { s with log := s.log ++ [LogLine.adjusted ic], ticker := s.ticker.Stop }
      if ic > 0 then
        match NewTicker ic now with
        | none => none
        | some tk =>
          some { s1 with Interval := ic, ticker := tk, retired := s1.ticker :: s1.retired }
      else
        some s1
    else
      some { s with log := s.log ++ [LogLine.unchanged s.Interval] }

/-- The `for` loop run over a finite list of events. -/
def loop (s : State) : List Event → Option State
  | [] => some s
  | e :: es =>
    match step s e with
    | none => none
    | some s1 => loop s1 es

/-- The method `start` entered at instant `t0` with `d.Interval = interval`,
followed through the given events: lines 55-58, then the loop. -/
def start (interval : Int) (t0 : Int) (events : List Event) : Option State :=
  match NewTicker interval t0 with
  | none => none
  | some tk =>
    loop { Interval := interval, ticker := tk, retired := [], spawned := [],
           log := [LogLine.starting interval] } events

/-- `NewDynamicTicker(interval, fn)` at instant `t0`: builds the receiver and
runs `go d.start()`; the events are what the background loop then receives. -/
def NewDynamicTicker (interval : Int) (t0 : Int) (events : List Event) : Option State :=
  start interval t0 events

/-! ## State predicates of the specification's state machine -/

/-- Every ticker `start` has created so far. -/
def State.timers (s : State) : List Ticker := s.ticker :: s.retired

/-- The number of created tickers that are not stopped. -/
def State.active (s : State) : Nat := (s.timers.filter (fun tk => !tk.stopped)).length

/-- A timer is armed: the loop's `ticker` has not been stopped. -/
def State.armed (s : State) : Bool := !s.ticker.stopped

/-- State `Paused`: no timer is armed, every created ticker has been stopped. -/
def State.Paused (s : State) : Prop := ∀ tk ∈ s.timers, tk.stopped = true

/-- State `Running(I)`: the loop's `ticker` is unstopped with period `I`, the
`Interval` field is `I`, and every earlier ticker has been stopped. -/
def State.Running (s : State) (I : Int) : Prop :=
  s.Interval = I ∧ s.ticker.period = I ∧ s.ticker.stopped = false ∧
    ∀ tk ∈ s.retired, tk.stopped = true

instance (s : State) : Decidable s.Paused := by
  unfold State.Paused; infer_instance

instance (s : State) (I : Int) : Decidable (s.Running I) := by
  unfold State.Running; infer_instance

/-- The loop invariant: the `Interval` field is positive, it is the period of
the loop's `ticker`, and every ticker no longer referred to has been stopped. -/
def Inv (s : State) : Prop :=
  0 < s.Interval ∧ s.ticker.period = s.Interval ∧ ∀ tk ∈ s.retired, tk.stopped = true

/-- The state `start` begins its loop in, for `interval` at instant `t0`. -/
def running (interval : Int) (t0 : Int) : State :=
  { Interval := interval, ticker := { period := interval, created := t0, stopped := false },
    retired := [], spawned := [], log := [LogLine.starting interval] }

/-- The loop state of a run that starts with interval 10s at instant 0, ticks
once at 10s and receives the request 11s at instant 30s. -/
def afterFirstChange : State :=
  { Interval := 11 * Second,
    ticker := { period := 11 * Second, created := 30 * Second, stopped := false },
    retired := [{ period := 10 * Second, created := 0, stopped := true }],
    spawned := [10 * Second],
    log := [LogLine.starting (10 * Second), LogLine.tick (10 * Second),
            LogLine.adjusted (11 * Second)] }

/-- The run recorded in the comment that closes `main.go` (lines 85-126), with
23:00:00 as instant 0: the ticks received and the requests sent by `main`. -/
def recordedRun : List Event :=
  [Event.tick (10 * Second) true, Event.tick (20 * Second) true, Event.tick (30 * Second) true,
   Event.change (11 * Second) (30 * Second),
   Event.tick (41 * Second) true, Event.tick (52 * Second) true,
   Event.change (17 * Second) (60 * Second),
   Event.tick (77 * Second) true,
   Event.change (17 * Second) (90 * Second),
   Event.tick (94 * Second) true, Event.tick (111 * Second) true,
   Event.change (29 * Second) (120 * Second),
   Event.tick (149 * Second) true,
   Event.change (11 * Second) (150 * Second),
   Event.tick (161 * Second) true, Event.tick (172 * Second) true,
   Event.change (28 * Second) (180 * Second),
   Event.tick (208 * Second) true]

/-- Every tick of a run falls on the instant `nextDue` gives for the loop's
`ticker`, counted from the instant `last` of the event before it. -/
def onSchedule (s : State) (last : Int) : List Event → Bool
  | [] => true
  | Event.tick t ok :: es =>
    s.ticker.nextDue last == some t &&
      match step s (Event.tick t ok) with
      | none => false
      | some s1 => onSchedule s1 t es
  | Event.change ic now :: es =>
    match step s (Event.change ic now) with
    | none => false
    | some s1 => onSchedule s1 now es

/-- Change requests with the given values and instants, as loop events. -/
def changes (reqs : List (Int × Int)) : List Event :=
  reqs.map (fun r => Event.change r.1 r.2)

end DynamicTicker

namespace gossh

/-! ## `SplitScriptLines` (gossh.go, lines 167-192)

A Go string is a sequence of bytes, not necessarily valid UTF-8.  The library
functions `SplitScriptLines` calls are modelled on bytes as the Go library
defines them; `strings.TrimSpace` decodes UTF-8 to find white space. -/

/-- A byte of a Go string. -/
abbrev Byte := Fin 256

/-- The line separator `"\n"`. -/
def newline : Byte := 10

/-- The comment mark `"#"`. -/
def hash : Byte := 35

/-- The continuation mark `"\\"`. -/
def backslash : Byte := 92

/-- `utf8.RuneError`, the rune returned for bytes that are not valid UTF-8. -/
def RuneError : Nat := 0xFFFD

/-- `unicode.IsSpace` on a rune: the white space `strings.TrimSpace` removes. -/
def isSpace (r : Nat) : Bool :=
  [9, 10, 11, 12, 13, 32, 0x85, 0xA0, 0x1680, 0x2028, 0x2029, 0x202F, 0x205F, 0x3000].contains r
    || (0x2000 ≤ r && r ≤ 0x200A)

/-- The byte lies between `lo` and `hi`. -/
def inRange (lo hi : Nat) (b : Byte) : Bool := lo ≤ b.val && b.val ≤ hi

/-- The length of the encoding a first byte announces (table `first` of package
`utf8`): 1 for ASCII, 2 to 4 for a leading byte, 0 for a byte that cannot
start an encoding. -/
def seqLen (b0 : Byte) : Nat :=
  if b0.val < 0x80 then 1
  else if 0xC2 ≤ b0.val ∧ b0.val ≤ 0xDF then 2
  else if 0xE0 ≤ b0.val ∧ b0.val ≤ 0xEF then 3
  else if 0xF0 ≤ b0.val ∧ b0.val ≤ 0xF4 then 4
  else 0

/-- The lower bound of the second byte (table `acceptRanges`). -/
def acceptLo (b0 : Byte) : Nat :=
  if b0.val = 0xE0 then 0xA0 else if b0.val = 0xF0 then 0x90 else 0x80

/-- The upper bound of the second byte (table `acceptRanges`). -/
def acceptHi (b0 : Byte) : Nat :=
  if b0.val = 0xED then 0x9F else if b0.val = 0xF4 then 0x8F else 0xBF

/-- The bytes after the first one are acceptable: the second within the
accept range of the first, the others continuation bytes `0x80..0xBF`. -/
def contOK (b0 : Byte) : List Byte → Bool
  | [] => false
  | b1 :: rest => inRange (acceptLo b0) (acceptHi b0) b1 && rest.all (inRange 0x80 0xBF)

/-- The rune encoded by the first byte `b0` and the bytes `c` after it: the
payload bits of `b0` (masks `mask2`, `mask3`, `mask4`), then six bits
(`maskx`) of each further byte. -/
def runeValue (b0 : Byte) (c : List Byte) : Nat :=
  c.foldl (fun acc b => acc * 64 + b.val % 64)
    (b0.val % (if seqLen b0 = 2 then 32 else if seqLen b0 = 3 then 16 else 8))

/-- `utf8.DecodeRuneInString`: the first rune of `s` and its width in bytes.
Bytes that do not start a valid encoding give `(RuneError, 1)`, the empty
string gives `(RuneError, 0)`. -/
def decodeRune (s : List Byte) : Nat × Nat :=
  match s with
  | [] => (RuneError, 0)
  | b0 :: t =>
    if b0.val < 0x80 then (b0.val, 1)
    else if 2 ≤ seqLen b0 ∧ (t.take (seqLen b0 - 1)).length + 1 = seqLen b0 ∧
        contOK b0 (t.take (seqLen b0 - 1)) = true then
      (runeValue b0 (t.take (seqLen b0 - 1)), seqLen b0)
    else (RuneError, 1)

/-- `utf8.RuneStart`: the byte is not a continuation byte. -/
def runeStart (b : Byte) : Bool := !(0x80 ≤ b.val && b.val ≤ 0xBF)

/-- The byte of `s` at index `i` starts a rune (false when there is none). -/
def runeStartAt (s : List Byte) (i : Nat) : Bool :=
  match s.get? i with
  | some b => runeStart b
  | none => false

/-- The index `start` from which `utf8.DecodeLastRuneInString` decodes when
the last byte of `s` is not ASCII: the nearest rune start among the three
bytes before the last one, else one below the limit `len(s) - 4`, or 0. -/
def lastStart (s : List Byte) : Nat :=
  let e := s.length
  if 2 ≤ e ∧ runeStartAt s (e - 2) = true then e - 2
  else if 3 ≤ e ∧ runeStartAt s (e - 3) = true then e - 3
  else if 4 ≤ e ∧ runeStartAt s (e - 4) = true then e - 4
  else e - 5

/-- `utf8.DecodeLastRuneInString`: the last rune of `s` and its width. -/
def decodeLastRune (s : List Byte) : Nat × Nat :=
  match s.getLast? with
  | none => (RuneError, 0)
  | some b =>
    if b.val < 0x80 then (b.val, 1)
    else
      let start := lastStart s
      let rw := decodeRune (s.drop start)
      if start + rw.2 ≠ s.length then (RuneError, 1) else rw

/-- `strings.TrimLeftFunc(s, unicode.IsSpace)`, with the length of `s` as
bound on the number of runes to remove. -/
def trimLeftAux : Nat → List Byte → List Byte
  | 0, s => s
  | n + 1, s =>
    match s with
    | [] => []
    | _ :: _ =>
      if isSpace (decodeRune s).1 = true then trimLeftAux n (s.drop (decodeRune s).2) else s

/-- Leading white space removed. -/
def trimLeft (s : List Byte) : List Byte := trimLeftAux s.length s

/-- `strings.TrimRightFunc(s, unicode.IsSpace)`, with the length of `s` as
bound on the number of runes to remove. -/
def trimRightAux : Nat → List Byte → List Byte
  | 0, s => s
  | n + 1, s =>
    match s with
    | [] => []
    | _ :: _ =>
      if isSpace (decodeLastRune s).1 = true then
        trimRightAux n (s.take (s.length - (decodeLastRune s).2))
      else s

/-- Trailing white space removed. -/
def trimRight (s : List Byte) : List Byte := trimRightAux s.length s

/-- `strings.TrimSpace`: leading and trailing white space removed. -/
def TrimSpace (s : List Byte) : List Byte := trimRight (trimLeft s)

/-- `strings.Split(s, "\n")`: the pieces between newlines; a string without a
newline gives the one piece `s`. -/
def Split : List Byte → List (List Byte)
  | [] => [[]]
  | c :: cs =>
    if c = newline then [] :: Split cs
    else
      match Split cs with
      | [] => [[c]]
      | l :: ls => (c :: l) :: ls

/-- `strings.HasPrefix`. -/
def HasPrefix (s p : List Byte) : Bool := p.isPrefixOf s

/-- `strings.HasSuffix`. -/
def HasSuffix (s p : List Byte) : Bool := p.isSuffixOf s

/-- The body of the `for ... range` loop on one `line`, acting on the pair
`(scriptLines, lastLine)`. -/
def lineStep (acc : List (List Byte) × List Byte) (line : List Byte) :
    List (List Byte) × List Byte :=
  let trimLine := TrimSpace line
  if trimLine = [] ∨ HasPrefix trimLine [hash] = true then acc
  else if HasSuffix line [backslash] = true then (acc.1, acc.2 ++ line.dropLast)
  else if acc.2 ≠ [] then (acc.1 ++ [acc.2 ++ line], [])
  else (acc.1 ++ [trimLine], acc.2)

/-- The function `SplitScriptLines`. -/
def SplitScriptLines (scripts : List Byte) : List (List Byte) :=
  let r := (Split scripts).foldl lineStep ([], [])
  if r.2 ≠ [] then r.1 ++ [r.2] else r.1

/-- The first byte of a string after its leading white space, if any. -/
def firstNonSpace (s : List Byte) : Option Byte := (trimLeft s).head?

/-- A string is blank: empty or made of white space only. -/
def isBlank (s : List Byte) : Bool := (trimLeft s).isEmpty

/-- A string is a comment: its first character that is not white space is `#`. -/
def isComment (s : List Byte) : Bool := firstNonSpace s = some hash

/-- `utf8.ValidString`, with a bound on the number of runes to decode. -/
def validAux : Nat → List Byte → Bool
  | 0, s => s.isEmpty
  | n + 1, s =>
    match s with
    | [] => true
    | _ :: _ =>
      if (decodeRune s).1 = RuneError ∧ (decodeRune s).2 = 1 then false
      else validAux n (s.drop (decodeRune s).2)

/-- The string is valid UTF-8. -/
def ValidString (s : List Byte) : Bool := validAux s.length s

/-- The bytes of a string written with ASCII characters. -/
def ascii (s : String) : List Byte := s.toList.map (fun c => Fin.ofNat c.toNat)

end gossh


/-! # Theorems -/

namespace DynamicTicker

/-! ## General facts about the loop -/

theorem NewTicker_pos {d : Int} (now : Int) (h : 0 < d) :
    NewTicker d now = some { period := d, created := now, stopped := false } := by
  simp [NewTicker, not_le.mpr h]

theorem step_change_same (s : State) (now : Int) :
    step s (Event.change s.Interval now)
      = some { s with log := s.log ++ [LogLine.unchanged s.Interval] } := by
  simp [step]

theorem step_change_nonpos (s : State) {ic : Int} (now : Int) (hne : ic ≠ s.Interval)
    (h : ic ≤ 0) :
    step s (Event.change ic now)
      = some { s with log := s.log ++ [LogLine.adjusted ic], ticker := s.ticker.Stop } := by
  simp [step, hne, not_lt.mpr h]

theorem step_change_pos (s : State) {ic : Int} (now : Int) (hne : ic ≠ s.Interval)
    (h : 0 < ic) :
    step s (Event.change ic now)
      = some { Interval := ic,
               ticker := { period := ic, created := now, stopped := false },
               retired := s.ticker.Stop :: s.retired,
               spawned := s.spawned,
               log := s.log ++ [LogLine.adjusted ic] } := by
  simp [step, hne, h, NewTicker_pos now h]

theorem step_tick (s : State) (t : Int) :
    step s (Event.tick t true)
      = some { s with log := s.log ++ [LogLine.tick t], spawned := s.spawned ++ [t] } := by
  simp [step]

/-- The loop body never panics. -/
theorem step_total (s : State) (e : Event) : ∃ s1, step s e = some s1 := by
  cases e with
  | tick t ok => cases ok <;> simp [step]
  | change ic now =>
    by_cases hne : ic = s.Interval
    · subst hne; exact ⟨_, step_change_same s now⟩
    · rcases lt_or_le 0 ic with h | h
      · exact ⟨_, step_change_pos s now hne h⟩
      · exact ⟨_, step_change_nonpos s now hne h⟩

theorem step_inv {s s1 : State} {e : Event} (hs : Inv s) (h : step s e = some s1) : Inv s1 := by
  obtain ⟨hI, hp, hr⟩ := hs
  cases e with
  | tick t ok =>
    cases ok <;> simp [step] at h <;> subst h <;> exact ⟨hI, hp, hr⟩
  | change ic now =>
    by_cases hne : ic = s.Interval
    · subst hne
      rw [step_change_same] at h
      cases h
      exact ⟨hI, hp, hr⟩
    · rcases lt_or_le 0 ic with hpos | hle
      · rw [step_change_pos s now hne hpos] at h
        cases h
        refine ⟨hpos, rfl, ?_⟩
        intro tk htk
        rcases List.mem_cons.mp htk with rfl | htk
        · rfl
        · exact hr tk htk
      · rw [step_change_nonpos s now hne hle] at h
        cases h
        exact ⟨hI, hp, hr⟩

theorem loop_total (s : State) (es : List Event) : ∃ s1, loop s es = some s1 := by
  induction es generalizing s with
  | nil => exact ⟨s, rfl⟩
  | cons e es ih =>
    obtain ⟨s1, h1⟩ := step_total s e
    obtain ⟨s2, h2⟩ := ih s1
    exact ⟨s2, by simp [loop, h1, h2]⟩

theorem loop_inv {s s1 : State} {es : List Event} (hs : Inv s) (h : loop s es = some s1) :
    Inv s1 := by
  induction es generalizing s with
  | nil => simp [loop] at h; subst h; exact hs
  | cons e es ih =>
    obtain ⟨s2, h2⟩ := step_total s e
    simp [loop, h2] at h
    exact ih (step_inv hs h2) h

theorem start_eq {I : Int} (t0 : Int) (es : List Event) (hI : 0 < I) :
    start I t0 es = loop (running I t0) es := by
  simp [start, NewTicker_pos t0 hI, running]

theorem running_inv {I : Int} (t0 : Int) (hI : 0 < I) : Inv (running I t0) :=
  ⟨hI, rfl, by simp [running]⟩

theorem start_inv {I t0 : Int} {es : List Event} {s : State} (hI : 0 < I)
    (h : start I t0 es = some s) : Inv s := by
  rw [start_eq t0 es hI] at h
  exact loop_inv (running_inv t0 hI) h

theorem active_le_one {s : State} (hs : Inv s) : s.active ≤ 1 := by
  obtain ⟨_, _, hr⟩ := hs
  have h0 : s.retired.filter (fun tk => !tk.stopped) = [] := by
    rw [List.filter_eq_nil_iff]
    intro tk htk
    simp [hr tk htk]
  unfold State.active State.timers
  rw [List.filter_cons]
  split <;> simp [h0]

/-- The model replays the recorded run: each recorded tick falls where the
model's ticker has its next tick due, and the callbacks dispatched are the
recorded ones. -/
theorem recordedRun_replayed :
    onSchedule (running (10 * Second) 0) 0 recordedRun = true ∧
    (start (10 * Second) 0 recordedRun).map State.spawned
      = some ([10, 20, 30, 41, 52, 77, 94, 111, 149, 161, 172, 208].map (fun n => n * Second)) := by
  decide

/-! ## The claims about `DynamicTicker.start` -/

/-- Resuming with another value: after a pause, a positive request `V`
different from the `Interval` field arms a new ticker of period `V`. -/
theorem resume_other_interval (s : State) (I P V t1 t2 : Int) (hR : s.Running I)
    (hI : 0 < I) (hP : P ≤ 0) (hV : 0 < V) (hne : V ≠ I) :
    ∃ s2, loop s [Event.change P t1, Event.change V t2] = some s2 ∧ s2.Running V ∧
      s2.ticker = { period := V, created := t2, stopped := false } := by
  obtain ⟨hInt, hper, hst, hret⟩ := hR
  have hPne : P ≠ s.Interval := by omega
  have hVne : V ≠ s.Interval := by omega
  refine ⟨{ Interval := V, ticker := { period := V, created := t2, stopped := false },
             retired := s.ticker.Stop.Stop :: s.retired, spawned := s.spawned,
             log := s.log ++ [LogLine.adjusted P] ++ [LogLine.adjusted V] }, ?_, ?_, rfl⟩
  · have h2 := step_change_pos
      { s with log := s.log ++ [LogLine.adjusted P], ticker := s.ticker.Stop } t2
      (show V ≠ s.Interval from hVne) hV
    simp only at h2
    simp only [loop, step_change_nonpos s t1 hPne hP, h2]
  · refine ⟨rfl, rfl, rfl, ?_⟩
    intro tk htk
    rcases List.mem_cons.mp htk with rfl | htk
    · rfl
    · exact hret tk htk

/-- C1 (as the code behaves): from `Running(I)` with `I > 0`, a non-positive
request `P` followed by the request `I` itself leaves the ticker paused: the
second request is taken for "interval unchanged", the log says so, no ticker is
armed and the state is not `Running(I)`. -/
theorem resume_same_interval_stays_paused (s : State) (I P t1 t2 : Int) (hR : s.Running I)
    (hI : 0 < I) (hP : P ≤ 0) :
    ∃ s2, loop s [Event.change P t1, Event.change I t2] = some s2 ∧ s2.Paused ∧
      ¬ s2.Running I ∧ s2.ticker = s.ticker.Stop ∧ s2.retired = s.retired ∧
      s2.log = s.log ++ [LogLine.adjusted P, LogLine.unchanged I] := by
  obtain ⟨hInt, hper, hst, hret⟩ := hR
  have hPne : P ≠ s.Interval := by omega
  subst hInt
  refine ⟨{ s with log := s.log ++ [LogLine.adjusted P] ++ [LogLine.unchanged s.Interval],
                    ticker := s.ticker.Stop }, ?_, ?_, ?_, rfl, rfl, ?_⟩
  · simp only [loop, step_change_nonpos s t1 hPne hP]
    have := step_change_same
      { s with log := s.log ++ [LogLine.adjusted P], ticker := s.ticker.Stop } t2
    simp only at this
    rw [this]
  · intro tk htk
    rcases List.mem_cons.mp htk with rfl | htk
    · rfl
    · exact hret tk htk
  · intro h
    have := h.2.2.1
    simp [Ticker.Stop] at this
  · simp

theorem resume_same_interval_stays_paused_witness :
    (running (10 * Second) 0).Running (10 * Second) ∧ (0 : Int) < 10 * Second ∧ (0 : Int) ≤ 0 ∧
    ∃ s2, loop (running (10 * Second) 0)
        [Event.change 0 (25 * Second), Event.change (10 * Second) (40 * Second)] = some s2 ∧
      s2.Paused ∧ ¬ s2.Running (10 * Second) ∧
      s2.ticker = (running (10 * Second) 0).ticker.Stop ∧
      s2.retired = (running (10 * Second) 0).retired ∧
      s2.log = (running (10 * Second) 0).log
        ++ [LogLine.adjusted 0, LogLine.unchanged (10 * Second)] :=
  ⟨by decide, by decide, by decide,
    resume_same_interval_stays_paused (running (10 * Second) 0) (10 * Second) 0 (25 * Second)
      (40 * Second) (by decide) (by decide) (by decide)⟩

theorem Stop_of_stopped {tk : Ticker} (h : tk.stopped = true) : tk.Stop = tk := by
  cases tk
  simp only [Ticker.Stop] at *
  simp [h]

theorem loop_changes_paused (s : State) (reqs : List (Int × Int)) (hI : 0 < s.Interval)
    (hst : s.ticker.stopped = true) (hreqs : ∀ r ∈ reqs, r.1 ≤ 0) :
    ∃ s1, loop s (changes reqs) = some s1 ∧ s1.Interval = s.Interval ∧
      s1.ticker = s.ticker ∧ s1.retired = s.retired ∧ s1.spawned = s.spawned := by
  induction reqs generalizing s with
  | nil => exact ⟨s, rfl, rfl, rfl, rfl, rfl⟩
  | cons r rs ih =>
    have hr : r.1 ≤ 0 := hreqs r (List.mem_cons_self _ _)
    have hne : r.1 ≠ s.Interval := by omega
    obtain ⟨s1, h1, hInt, htk, hret, hsp⟩ :=
      ih { s with log := s.log ++ [LogLine.adjusted r.1], ticker := s.ticker.Stop } hI
        (by simp [Ticker.Stop]) (fun x hx => hreqs x (List.mem_cons_of_mem _ hx))
    refine ⟨s1, ?_, hInt, ?_, hret, hsp⟩
    · simp only [changes, List.map_cons, loop, step_change_nonpos s r.2 hne hr]
      exact h1
    · rw [htk]
      exact Stop_of_stopped hst

/-- C2: from `Running(I)` with `I > 0`, a request `V ≤ 0` stops the current
ticker and arms no new one, and through every further sequence of non-positive
requests the loop stays there: no ticker is armed (so none delivers a tick),
no ticker is created and no callback is dispatched. -/
theorem pause_halts_ticks (s : State) (I V now : Int) (reqs : List (Int × Int))
    (hR : s.Running I) (hI : 0 < I) (hV : V ≤ 0) (hreqs : ∀ r ∈ reqs, r.1 ≤ 0) :
    ∃ s1, loop s (Event.change V now :: changes reqs) = some s1 ∧ s1.Paused ∧
      s1.armed = false ∧ s1.ticker = s.ticker.Stop ∧ s1.retired = s.retired ∧
      s1.spawned = s.spawned ∧ ∀ t, s1.ticker.nextDue t = none := by
  obtain ⟨hInt, hper, hst, hret⟩ := hR
  have hne : V ≠ s.Interval := by omega
  obtain ⟨s1, h1, _, htk, hr1, hsp⟩ :=
    loop_changes_paused
      { s with log := s.log ++ [LogLine.adjusted V], ticker := s.ticker.Stop } reqs
      (by simpa [hInt] using hI) (by simp [Ticker.Stop]) hreqs
  simp only at htk hr1 hsp
  refine ⟨s1, ?_, ?_, ?_, htk, hr1, hsp, ?_⟩
  · simp only [loop, step_change_nonpos s now hne hV]
    exact h1
  · intro tk htk1
    simp only [State.timers, htk, hr1] at htk1
    rcases List.mem_cons.mp htk1 with rfl | h
    · rfl
    · exact hret tk h
  · simp [State.armed, htk, Ticker.Stop]
  · intro t
    simp [Ticker.nextDue, htk, Ticker.Stop]

theorem pause_halts_ticks_witness :
    (running (10 * Second) 0).Running (10 * Second) ∧ (0 : Int) < 10 * Second ∧
    (0 : Int) ≤ 0 ∧ (∀ r ∈ [((-5 : Int), 30 * Second), (0, 35 * Second)], r.1 ≤ 0) ∧
    ∃ s1, loop (running (10 * Second) 0)
        (Event.change 0 (25 * Second) :: changes [(-5, 30 * Second), (0, 35 * Second)])
          = some s1 ∧ s1.Paused ∧
      s1.armed = false ∧ s1.ticker = (running (10 * Second) 0).ticker.Stop ∧
      s1.retired = (running (10 * Second) 0).retired ∧
      s1.spawned = (running (10 * Second) 0).spawned ∧ ∀ t, s1.ticker.nextDue t = none :=
  ⟨by decide, by decide, by decide, by decide,
    pause_halts_ticks (running (10 * Second) 0) (10 * Second) 0 (25 * Second)
      [(-5, 30 * Second), (0, 35 * Second)] (by decide) (by decide) (by decide) (by decide)⟩

/-- C3: from `Running(A)`, a request `B` with `B > 0` and `B ≠ A` received at
instant `t` stops the ticker of period `A`, creates exactly one ticker, of
period `B` with its phase starting at `t` (next tick due at `t + B`), and sets
the `Interval` field to `B`: the state is `Running(B)`. -/
theorem reset_on_change (s : State) (A B t : Int) (hR : s.Running A) (hB : 0 < B)
    (hne : B ≠ A) :
    ∃ s1, step s (Event.change B t) = some s1 ∧
      s1.ticker = { period := B, created := t, stopped := false } ∧
      s1.retired = s.ticker.Stop :: s.retired ∧ s.ticker.Stop.stopped = true ∧
      s1.timers.length = s.timers.length + 1 ∧ s1.active = 1 ∧
      s1.Interval = B ∧ s1.Running B ∧ s1.spawned = s.spawned ∧
      s1.ticker.nextDue t = some (t + B) := by
  obtain ⟨hInt, hper, hst, hret⟩ := hR
  have hne1 : B ≠ s.Interval := by omega
  have hret1 : ∀ tk ∈ s.ticker.Stop :: s.retired, tk.stopped = true := by
    intro tk htk
    rcases List.mem_cons.mp htk with rfl | h
    · rfl
    · exact hret tk h
  refine ⟨_, step_change_pos s t hne1 hB, rfl, rfl, rfl, ?_, ?_, rfl, ⟨rfl, rfl, rfl, hret1⟩,
    rfl, ?_⟩
  · simp [State.timers]
  · have h0 : (s.ticker.Stop :: s.retired).filter (fun tk => !tk.stopped) = [] := by
      rw [List.filter_eq_nil_iff]
      intro tk htk
      simp [hret1 tk htk]
    simp only [State.active, State.timers]
    rw [List.filter_cons]
    simp [h0]
  · simp [Ticker.nextDue]

theorem reset_on_change_witness :
    (running (10 * Second) 0).Running (10 * Second) ∧ (0 : Int) < 11 * Second ∧
    (11 * Second ≠ 10 * Second) ∧
    ∃ s1, step (running (10 * Second) 0) (Event.change (11 * Second) (30 * Second)) = some s1 ∧
      s1.ticker = { period := 11 * Second, created := 30 * Second, stopped := false } ∧
      s1.retired = (running (10 * Second) 0).ticker.Stop :: (running (10 * Second) 0).retired ∧
      (running (10 * Second) 0).ticker.Stop.stopped = true ∧
      s1.timers.length = (running (10 * Second) 0).timers.length + 1 ∧ s1.active = 1 ∧
      s1.Interval = 11 * Second ∧ s1.Running (11 * Second) ∧
      s1.spawned = (running (10 * Second) 0).spawned ∧
      s1.ticker.nextDue (30 * Second) = some (30 * Second + 11 * Second) :=
  ⟨by decide, by decide, by decide,
    reset_on_change (running (10 * Second) 0) (10 * Second) (11 * Second) (30 * Second)
      (by decide) (by decide) (by decide)⟩

/-- C4: from `Running(I)`, a request whose value is `I` changes nothing but
the log: the `Interval` field, the loop's `ticker` (neither stopped nor
replaced), the earlier tickers and the dispatched callbacks are the same, so
the next tick is due when it was due before. -/
theorem same_value_noop (s : State) (I now : Int) (hR : s.Running I) :
    step s (Event.change I now) = some { s with log := s.log ++ [LogLine.unchanged I] } ∧
    ∃ s1, step s (Event.change I now) = some s1 ∧ s1.Interval = I ∧ s1.ticker = s.ticker ∧
      s1.ticker.stopped = false ∧ s1.retired = s.retired ∧ s1.spawned = s.spawned ∧
      s1.Running I ∧ ∀ t, s1.ticker.nextDue t = s.ticker.nextDue t := by
  have hInt := hR.1
  subst hInt
  refine ⟨step_change_same s now, _, step_change_same s now, rfl, rfl, hR.2.2.1, rfl, rfl, hR,
    fun _ => rfl⟩

theorem same_value_noop_witness :
    (running (17 * Second) (60 * Second)).Running (17 * Second) ∧
    (step (running (17 * Second) (60 * Second)) (Event.change (17 * Second) (90 * Second))
      = some { running (17 * Second) (60 * Second) with
          log := (running (17 * Second) (60 * Second)).log
            ++ [LogLine.unchanged (17 * Second)] } ∧
    ∃ s1, step (running (17 * Second) (60 * Second)) (Event.change (17 * Second) (90 * Second))
        = some s1 ∧ s1.Interval = 17 * Second ∧
      s1.ticker = (running (17 * Second) (60 * Second)).ticker ∧
      s1.ticker.stopped = false ∧ s1.retired = (running (17 * Second) (60 * Second)).retired ∧
      s1.spawned = (running (17 * Second) (60 * Second)).spawned ∧
      s1.Running (17 * Second) ∧
      ∀ t, s1.ticker.nextDue t = (running (17 * Second) (60 * Second)).ticker.nextDue t) :=
  ⟨by decide,
    same_value_noop (running (17 * Second) (60 * Second)) (17 * Second) (90 * Second)
      (by decide)⟩

/-- C5 as stated fails: after `start` with interval 10s has processed the
request 0, no ticker is armed and yet the `Interval` field is still 10s, so
"paused if and only if `Interval` is non-positive" does not hold in every
reachable state. -/
theorem paused_not_marked_by_interval :
    ¬ (∀ (I t0 : Int) (events : List Event) (s : State), 0 < I →
        start I t0 events = some s → (s.Paused ↔ s.Interval ≤ 0)) := by
  intro h
  have h1 := h (10 * Second) 0 [Event.change 0 (25 * Second)]
    { Interval := 10 * Second,
      ticker := { period := 10 * Second, created := 0, stopped := true },
      retired := [], spawned := [],
      log := [LogLine.starting (10 * Second), LogLine.adjusted 0] }
    (by decide) (by decide)
  revert h1
  decide

/-- C5, amended: in every state the loop reaches from a positive initial
interval, an armed ticker is the loop's `ticker`, the `Interval` field is then
positive and equal to that ticker's period; hence a non-positive `Interval`
field would mean that no ticker is armed. -/
theorem armed_interval_matches (I t0 : Int) (events : List Event) (s : State) (hI : 0 < I)
    (h : start I t0 events = some s) :
    (∀ tk ∈ s.timers, tk.stopped = false →
        tk = s.ticker ∧ 0 < s.Interval ∧ s.Interval = tk.period) ∧
    (s.armed = true → 0 < s.Interval ∧ s.Interval = s.ticker.period) ∧
    (s.Interval ≤ 0 → s.Paused) := by
  obtain ⟨hpos, hper, hret⟩ := start_inv hI h
  refine ⟨?_, fun _ => ⟨hpos, hper.symm⟩, fun hle => absurd hpos (not_lt.mpr hle)⟩
  intro tk htk hst
  rcases List.mem_cons.mp htk with rfl | hmem
  · exact ⟨rfl, hpos, hper.symm⟩
  · rw [hret tk hmem] at hst
    cases hst

theorem armed_interval_matches_witness :
    (0 : Int) < 10 * Second ∧
    start (10 * Second) 0 [Event.tick (10 * Second) true, Event.change (11 * Second) (30 * Second)]
      = some afterFirstChange ∧
    ((∀ tk ∈ afterFirstChange.timers, tk.stopped = false →
        tk = afterFirstChange.ticker ∧ 0 < afterFirstChange.Interval ∧
          afterFirstChange.Interval = tk.period) ∧
    (afterFirstChange.armed = true →
      0 < afterFirstChange.Interval ∧ afterFirstChange.Interval = afterFirstChange.ticker.period) ∧
    (afterFirstChange.Interval ≤ 0 → afterFirstChange.Paused)) :=
  ⟨by decide, by decide,
    armed_interval_matches (10 * Second) 0
      [Event.tick (10 * Second) true, Event.change (11 * Second) (30 * Second)] afterFirstChange
      (by decide) (by decide)⟩

/-- C6: `NewDynamicTicker` with a positive interval never panics, whatever
tick events and change requests follow, and in the state reached at most one
of the tickers created is unstopped: every ticker other than the loop's
current one was stopped before its successor was created. -/
theorem at_most_one_active_timer (I t0 : Int) (events : List Event) (hI : 0 < I) :
    ∃ s, NewDynamicTicker I t0 events = some s ∧ s.active ≤ 1 ∧
      ∀ tk ∈ s.retired, tk.stopped = true := by
  obtain ⟨s, hs⟩ := loop_total (running I t0) events
  have h : start I t0 events = some s := by rw [start_eq t0 events hI]; exact hs
  have hinv := start_inv hI h
  exact ⟨s, h, active_le_one hinv, hinv.2.2⟩

theorem at_most_one_active_timer_witness :
    (0 : Int) < 10 * Second ∧
    ∃ s, NewDynamicTicker (10 * Second) 0
        [Event.tick (10 * Second) true, Event.change (11 * Second) (30 * Second),
         Event.change 0 (35 * Second), Event.change (-1) (36 * Second),
         Event.change (17 * Second) (60 * Second)] = some s ∧ s.active ≤ 1 ∧
      ∀ tk ∈ s.retired, tk.stopped = true :=
  ⟨by decide,
    at_most_one_active_timer (10 * Second) 0
      [Event.tick (10 * Second) true, Event.change (11 * Second) (30 * Second),
       Event.change 0 (35 * Second), Event.change (-1) (36 * Second),
       Event.change (17 * Second) (60 * Second)] (by decide)⟩

/-- C7: from `Running(I)`, a tick event carrying `t` dispatches the callback
exactly once, with argument `t`, and leaves the `Interval` field, the loop's
`ticker` and the earlier tickers as they were, so the state is again
`Running(I)`; a change-request event dispatches no callback. -/
theorem one_callback_per_tick (s : State) (I t : Int) (hR : s.Running I) :
    (∃ s1, step s (Event.tick t true) = some s1 ∧ s1.spawned = s.spawned ++ [t] ∧
      s1.Interval = s.Interval ∧ s1.ticker = s.ticker ∧ s1.retired = s.retired ∧
      s1.Running I) ∧
    ∀ (s0 : State) (ic now : Int),
      ∃ s1, step s0 (Event.change ic now) = some s1 ∧ s1.spawned = s0.spawned := by
  refine ⟨⟨_, step_tick s t, rfl, rfl, rfl, rfl, hR⟩, ?_⟩
  intro s0 ic now
  by_cases hne : ic = s0.Interval
  · subst hne; exact ⟨_, step_change_same s0 now, rfl⟩
  · rcases lt_or_le 0 ic with h | h
    · exact ⟨_, step_change_pos s0 now hne h, rfl⟩
    · exact ⟨_, step_change_nonpos s0 now hne h, rfl⟩

theorem one_callback_per_tick_witness :
    (running (10 * Second) 0).Running (10 * Second) ∧
    ((∃ s1, step (running (10 * Second) 0) (Event.tick (10 * Second) true) = some s1 ∧
      s1.spawned = (running (10 * Second) 0).spawned ++ [10 * Second] ∧
      s1.Interval = (running (10 * Second) 0).Interval ∧
      s1.ticker = (running (10 * Second) 0).ticker ∧
      s1.retired = (running (10 * Second) 0).retired ∧
      s1.Running (10 * Second)) ∧
    ∀ (s0 : State) (ic now : Int),
      ∃ s1, step s0 (Event.change ic now) = some s1 ∧ s1.spawned = s0.spawned) :=
  ⟨by decide, one_callback_per_tick (running (10 * Second) 0) (10 * Second) (10 * Second)
    (by decide)⟩

end DynamicTicker

namespace gossh

/-! ## Facts about the UTF-8 decoder -/

theorem isSpace_RuneError : isSpace RuneError = false := by decide

theorem isSpace_backslash : isSpace backslash.val = false := by decide

theorem backslash_ne_newline : backslash ≠ newline := by decide

/-- The decoder on some encodings: ASCII, the white space U+00A0, U+2003 and
U+3000 read forwards and backwards, a four-byte rune, a lone leading byte,
a lone continuation byte, an overlong form and a surrogate. -/
theorem decoder_examples :
    decodeRune [0x23, 0x78] = (0x23, 1) ∧
    decodeRune [0xc2, 0xa0, 0x23] = (0xA0, 2) ∧
    decodeRune [0xe2, 0x80, 0x83] = (0x2003, 3) ∧
    decodeRune [0xe3, 0x80, 0x80, 0x78] = (0x3000, 3) ∧
    decodeRune [0xf0, 0x9f, 0x98, 0x80] = (0x1F600, 4) ∧
    decodeRune [0xc2, 0x5c] = (RuneError, 1) ∧
    decodeRune [0xa0, 0x23] = (RuneError, 1) ∧
    decodeRune [0xc0, 0x80] = (RuneError, 1) ∧
    decodeRune [0xed, 0xa0, 0x80] = (RuneError, 1) ∧
    decodeLastRune [0x78, 0xc2, 0xa0] = (0xA0, 2) ∧
    decodeLastRune [0x78, 0xe3, 0x80, 0x80] = (0x3000, 3) ∧
    decodeLastRune [0x78, 0x80, 0x80] = (RuneError, 1) ∧
    TrimSpace ([0xe3, 0x80, 0x80, 0x20] ++ ascii "pwd" ++ [0x09, 0xc2, 0xa0, 0x0d])
      = ascii "pwd" := by
  decide

theorem seqLen_le (b0 : Byte) : seqLen b0 ≤ 4 := by
  unfold seqLen
  split_ifs <;> omega

/-- The three outcomes of decoding a non-empty string. -/
theorem decodeRune_cons (b0 : Byte) (t : List Byte) :
    (b0.val < 0x80 ∧ decodeRune (b0 :: t) = (b0.val, 1)) ∨
    (¬ b0.val < 0x80 ∧ 2 ≤ seqLen b0 ∧ (t.take (seqLen b0 - 1)).length + 1 = seqLen b0 ∧
      contOK b0 (t.take (seqLen b0 - 1)) = true ∧
      decodeRune (b0 :: t) = (runeValue b0 (t.take (seqLen b0 - 1)), seqLen b0)) ∨
    (¬ b0.val < 0x80 ∧
      ¬ (2 ≤ seqLen b0 ∧ (t.take (seqLen b0 - 1)).length + 1 = seqLen b0 ∧
          contOK b0 (t.take (seqLen b0 - 1)) = true) ∧
      decodeRune (b0 :: t) = (RuneError, 1)) := by
  by_cases h1 : b0.val < 0x80
  · left
    exact ⟨h1, by simp only [decodeRune, if_pos h1]⟩
  · by_cases h2 : 2 ≤ seqLen b0 ∧ (t.take (seqLen b0 - 1)).length + 1 = seqLen b0 ∧
        contOK b0 (t.take (seqLen b0 - 1)) = true
    · right; left
      exact ⟨h1, h2.1, h2.2.1, h2.2.2, by simp only [decodeRune, if_neg h1, if_pos h2]⟩
    · right; right
      exact ⟨h1, h2, by simp only [decodeRune, if_neg h1, if_neg h2]⟩

theorem decodeRune_width_le (s : List Byte) : (decodeRune s).2 ≤ s.length := by
  cases s with
  | nil => simp [decodeRune]
  | cons b0 t =>
    rcases decodeRune_cons b0 t with ⟨_, h⟩ | ⟨_, _, hl, _, h⟩ | ⟨_, _, h⟩
    · rw [h]; simp
    · rw [h]
      rw [List.length_take] at hl
      show seqLen b0 ≤ t.length + 1
      omega
    · rw [h]; simp

theorem decodeRune_width_pos (s : List Byte) (hs : s ≠ []) : 1 ≤ (decodeRune s).2 := by
  cases s with
  | nil => exact absurd rfl hs
  | cons b0 t =>
    rcases decodeRune_cons b0 t with ⟨_, h⟩ | ⟨_, h2, _, _, h⟩ | ⟨_, _, h⟩
    · rw [h]
    · rw [h]; simp only; omega
    · rw [h]

/-- A rune that decodes from a string decodes the same from every extension of
that string. -/
theorem decodeRune_append (p t : List Byte)
    (h : ¬ ((decodeRune p).1 = RuneError ∧ (decodeRune p).2 = 1)) (hp : p ≠ []) :
    decodeRune (p ++ t) = decodeRune p := by
  cases p with
  | nil => exact absurd rfl hp
  | cons b0 p1 =>
    rcases decodeRune_cons b0 p1 with ⟨h1, he⟩ | ⟨h1, h2, hl, hc, he⟩ | ⟨_, _, he⟩
    · rw [he, List.cons_append]
      simp only [decodeRune, if_pos h1]
    · have hlen : seqLen b0 - 1 ≤ p1.length := by
        have hl1 := hl
        rw [List.length_take] at hl1
        omega
      have htake : (p1 ++ t).take (seqLen b0 - 1) = p1.take (seqLen b0 - 1) :=
        List.take_append_of_le_length hlen
      rw [he, List.cons_append]
      simp only [decodeRune, if_neg h1, htake]
      rw [if_pos ⟨h2, hl, hc⟩]
    · rw [he] at h
      exact absurd ⟨rfl, rfl⟩ h

theorem contOK_snoc_ascii (b0 : Byte) (c : List Byte) (b : Byte) (hb : b.val < 0x80) :
    contOK b0 (c ++ [b]) = false := by
  cases c with
  | nil =>
    have : 0x80 ≤ acceptLo b0 := by unfold acceptLo; split_ifs <;> omega
    simp only [List.nil_append, contOK, inRange, List.all_nil, Bool.and_true]
    simp only [Bool.and_eq_false_iff, decide_eq_false_iff_not]
    left; omega
  | cons b1 rest =>
    simp only [List.cons_append, contOK, List.all_append, List.all_cons, List.all_nil,
      Bool.and_true, inRange]
    simp only [Bool.and_eq_false_iff, decide_eq_false_iff_not]
    right; right; left; omega

/-- An ASCII byte put after a non-empty string does not change the first rune
of that string. -/
theorem decodeRune_snoc_ascii (s : List Byte) (b : Byte) (hs : s ≠ []) (hb : b.val < 0x80) :
    decodeRune (s ++ [b]) = decodeRune s := by
  by_cases hok : (decodeRune s).1 = RuneError ∧ (decodeRune s).2 = 1
  · cases s with
    | nil => exact absurd rfl hs
    | cons b0 t =>
      have hes : decodeRune (b0 :: t) = (RuneError, 1) := Prod.ext hok.1 hok.2
      rw [hes, List.cons_append]
      rcases decodeRune_cons b0 (t ++ [b]) with ⟨h1, he⟩ | ⟨h1, h2, hl, hc, he⟩ | ⟨_, _, he⟩
      · rcases decodeRune_cons b0 t with ⟨_, he1⟩ | ⟨g1, _⟩ | ⟨g1, _⟩
        · rw [he, ← hes, he1]
        · exact absurd h1 g1
        · exact absurd h1 g1
      · exfalso
        rcases decodeRune_cons b0 t with ⟨g1, _⟩ | ⟨_, g2, gl, gc, ge⟩ | ⟨_, gn, _⟩
        · exact h1 g1
        · rw [ge] at hes
          have := (Prod.ext_iff.mp hes).2
          simp only at this
          omega
        · by_cases hlen : seqLen b0 - 1 ≤ t.length
          · apply gn
            rw [List.take_append_of_le_length hlen] at hl hc
            exact ⟨h2, hl, hc⟩
          · have htk : (t ++ [b]).take (seqLen b0 - 1) = t ++ [b] := by
              apply List.take_of_length_le
              rw [List.length_append, List.length_cons, List.length_nil]
              omega
            rw [htk, contOK_snoc_ascii b0 t b hb] at hc
            cases hc
      · exact he
  · exact decodeRune_append s [b] hok hs

/-- A rune of width 1 that is not an error is the ASCII byte itself. -/
theorem decodeRune_width_one (b0 : Byte) (t : List Byte)
    (hok : ¬ ((decodeRune (b0 :: t)).1 = RuneError ∧ (decodeRune (b0 :: t)).2 = 1))
    (hw : (decodeRune (b0 :: t)).2 = 1) :
    b0.val < 0x80 ∧ decodeRune (b0 :: t) = (b0.val, 1) := by
  rcases decodeRune_cons b0 t with ⟨h1, he⟩ | ⟨h1, h2, hl, hc, he⟩ | ⟨_, _, he⟩
  · exact ⟨h1, he⟩
  · rw [he] at hw; simp only at hw; omega
  · rw [he] at hok; exact absurd ⟨rfl, rfl⟩ hok

theorem not_error_of_isSpace {s : List Byte} (h : isSpace (decodeRune s).1 = true) :
    ¬ ((decodeRune s).1 = RuneError ∧ (decodeRune s).2 = 1) := by
  rintro ⟨h1, _⟩
  rw [h1, isSpace_RuneError] at h
  cases h

/-! ## Facts about trimming -/

theorem trimLeftAux_fuel (n m : Nat) (s : List Byte) (hn : s.length ≤ n) (hm : s.length ≤ m) :
    trimLeftAux n s = trimLeftAux m s := by
  induction n generalizing m s with
  | zero =>
    have hs : s = [] := List.eq_nil_of_length_eq_zero (by omega)
    subst hs
    cases m <;> rfl
  | succ n ih =>
    cases s with
    | nil => cases m <;> rfl
    | cons b t =>
      cases m with
      | zero => simp at hm
      | succ m =>
        simp only [trimLeftAux]
        split_ifs with hsp
        · have hw := decodeRune_width_pos (b :: t) (by simp)
          have hl : ((b :: t).drop (decodeRune (b :: t)).2).length ≤ t.length := by
            rw [List.length_drop, List.length_cons]
            omega
          simp only [List.length_cons] at hn hm
          exact ih m _ (by omega) (by omega)
        · rfl

/-- Induction on the length of a string. -/
theorem byLength {motive : List Byte → Prop}
    (step : ∀ s, (∀ t : List Byte, t.length < s.length → motive t) → motive s)
    (s : List Byte) : motive s := by
  suffices H : ∀ n, ∀ s : List Byte, s.length = n → motive s from H _ s rfl
  intro n
  induction n using Nat.strong_induction_on with
  | _ n ih =>
    intro s hs
    exact step s (fun t ht => ih t.length (hs ▸ ht) t rfl)

theorem trimLeft_nil : trimLeft [] = [] := rfl

/-- One step of `trimLeft` on a non-empty string. -/
theorem trimLeft_step (s : List Byte) (hs : s ≠ []) :
    trimLeft s
      = if isSpace (decodeRune s).1 = true then trimLeft (s.drop (decodeRune s).2) else s := by
  cases s with
  | nil => exact absurd rfl hs
  | cons b t =>
    have hw := decodeRune_width_pos (b :: t) (by simp)
    have hl : ((b :: t).drop (decodeRune (b :: t)).2).length ≤ t.length := by
      rw [List.length_drop, List.length_cons]
      omega
    unfold trimLeft
    simp only [List.length_cons, trimLeftAux]
    split_ifs
    · exact trimLeftAux_fuel _ _ _ hl (le_refl _)
    · rfl

theorem drop_width_lt (s : List Byte) (hs : s ≠ []) :
    (s.drop (decodeRune s).2).length < s.length := by
  have hw := decodeRune_width_pos s hs
  have : 0 < s.length := List.length_pos.mpr hs
  rw [List.length_drop]
  omega

theorem trimLeft_of_not_space (s : List Byte) (h : isSpace (decodeRune s).1 = false) :
    trimLeft s = s := by
  cases s with
  | nil => rfl
  | cons b t => rw [trimLeft_step _ (by simp), if_neg (by simp [h])]

/-- What `trimLeft` leaves does not start with white space. -/
theorem trimLeft_head_not_space (s : List Byte) :
    isSpace (decodeRune (trimLeft s)).1 = false := by
  induction s using byLength with
  | _ s ih =>
    by_cases hs : s = []
    · subst hs; exact isSpace_RuneError
    · rw [trimLeft_step s hs]
      split_ifs with hsp
      · exact ih _ (drop_width_lt s hs)
      · simpa using hsp

theorem trimLeft_idem (s : List Byte) : trimLeft (trimLeft s) = trimLeft s :=
  trimLeft_of_not_space _ (trimLeft_head_not_space s)

/-- Where `DecodeLastRuneInString` finds white space, the rune it returns is
the one `DecodeRuneInString` reads at that place. -/
theorem decodeLastRune_space (s : List Byte) (h : isSpace (decodeLastRune s).1 = true) :
    decodeRune (s.drop (s.length - (decodeLastRune s).2)) = decodeLastRune s ∧
      (decodeLastRune s).2 ≤ s.length := by
  unfold decodeLastRune at h ⊢
  cases hlast : s.getLast? with
  | none =>
    rw [hlast] at h
    simp only [isSpace_RuneError] at h
    cases h
  | some b =>
    rw [hlast] at h
    simp only at h ⊢
    have hne : s ≠ [] := by
      rintro rfl
      simp at hlast
    have hpos : 0 < s.length := List.length_pos.mpr hne
    by_cases hb : b.val < 0x80
    · rw [if_pos hb]
      refine ⟨?_, hpos⟩
      have hsplit : s = s.dropLast ++ [b] := by
        exact (List.dropLast_append_getLast? b (Option.mem_def.mpr hlast)).symm
      have hd : s.drop (s.length - 1) = [b] := by
        conv_lhs => rw [hsplit]
        rw [List.drop_append_of_le_length (by simp)]
        simp [List.drop_eq_nil_of_le]
      simp only
      rw [hd]
      simp only [decodeRune, if_pos hb]
    · rw [if_neg hb] at h ⊢
      by_cases hst : lastStart s + (decodeRune (s.drop (lastStart s))).2 ≠ s.length
      · rw [if_pos hst] at h
        simp only [isSpace_RuneError] at h
        cases h
      · rw [if_neg hst] at h ⊢
        have heq : lastStart s + (decodeRune (s.drop (lastStart s))).2 = s.length := by
          simpa using hst
        have : s.length - (decodeRune (s.drop (lastStart s))).2 = lastStart s := by omega
        rw [this]
        exact ⟨rfl, by omega⟩

theorem decodeLastRune_space_pos (s : List Byte) (h : isSpace (decodeLastRune s).1 = true) :
    1 ≤ (decodeLastRune s).2 := by
  obtain ⟨hdec, _⟩ := decodeLastRune_space s h
  by_cases hd : s.drop (s.length - (decodeLastRune s).2) = []
  · rw [hd] at hdec
    rw [← hdec] at h
    simp only [decodeRune, isSpace_RuneError] at h
    cases h
  · rw [← hdec]
    exact decodeRune_width_pos _ hd

theorem trimRightAux_fuel (n m : Nat) (s : List Byte) (hn : s.length ≤ n) (hm : s.length ≤ m) :
    trimRightAux n s = trimRightAux m s := by
  induction n generalizing m s with
  | zero =>
    have hs : s = [] := List.eq_nil_of_length_eq_zero (by omega)
    subst hs
    cases m <;> rfl
  | succ n ih =>
    cases s with
    | nil => cases m <;> rfl
    | cons b t =>
      cases m with
      | zero => simp at hm
      | succ m =>
        simp only [trimRightAux]
        split_ifs with hsp
        · have hw := decodeLastRune_space_pos (b :: t) hsp
          have hl : ((b :: t).take ((b :: t).length - (decodeLastRune (b :: t)).2)).length
              ≤ t.length := by
            rw [List.length_take, List.length_cons]
            omega
          simp only [List.length_cons] at hn hm
          exact ih m _ (by omega) (by omega)
        · rfl

/-- One step of `trimRight` on a non-empty string. -/
theorem trimRight_step (s : List Byte) (hs : s ≠ []) :
    trimRight s
      = if isSpace (decodeLastRune s).1 = true then
          trimRight (s.take (s.length - (decodeLastRune s).2))
        else s := by
  cases s with
  | nil => exact absurd rfl hs
  | cons b t =>
    unfold trimRight
    simp only [List.length_cons, trimRightAux]
    split_ifs with hsp
    · have hw := decodeLastRune_space_pos (b :: t) hsp
      apply trimRightAux_fuel
      · rw [List.length_take, List.length_cons]
        omega
      · exact le_refl _
    · rfl

/-- What `trimRight` leaves does not end with white space. -/
theorem trimRight_last_not_space (s : List Byte) :
    isSpace (decodeLastRune (trimRight s)).1 = false := by
  induction s using byLength with
  | _ s ih =>
    by_cases hs : s = []
    · subst hs; exact isSpace_RuneError
    · rw [trimRight_step s hs]
      split_ifs with hsp
      · apply ih
        have hw := decodeLastRune_space_pos s hsp
        have : 0 < s.length := List.length_pos.mpr hs
        rw [List.length_take]
        omega
      · simpa using hsp

theorem trimRightAux_prefix (n : Nat) (x : List Byte) : trimRightAux n x <+: x := by
  induction n generalizing x with
  | zero => exact List.prefix_refl x
  | succ n ih =>
    cases x with
    | nil => exact List.prefix_refl _
    | cons b t =>
      simp only [trimRightAux]
      split_ifs
      · exact (ih _).trans (List.take_prefix _ _)
      · exact List.prefix_refl _

/-- A string that does not start with white space keeps a non-empty part that
does not start with white space when trailing white space is removed. -/
theorem trimRightAux_keeps (n : Nat) (x : List Byte) (hx : x ≠ [])
    (h : isSpace (decodeRune x).1 = false) :
    trimRightAux n x ≠ [] ∧ isSpace (decodeRune (trimRightAux n x)).1 = false := by
  induction n generalizing x with
  | zero => exact ⟨hx, h⟩
  | succ n ih =>
    cases x with
    | nil => exact absurd rfl hx
    | cons b t =>
      simp only [trimRightAux]
      split_ifs with hsp
      · obtain ⟨hdec, hle⟩ := decodeLastRune_space (b :: t) hsp
        set k := (b :: t).length - (decodeLastRune (b :: t)).2 with hk
        have hk0 : k ≠ 0 := by
          intro h0
          rw [h0, List.drop_zero] at hdec
          rw [hdec, hsp] at h
          cases h
        have htake : (b :: t).take k ≠ [] := by
          intro h0
          have := congrArg List.length h0
          rw [List.length_take] at this
          simp only [List.length_cons, List.length_nil] at this
          omega
        apply ih _ htake
        cases hsp2 : isSpace (decodeRune ((b :: t).take k)).1 with
        | false => rfl
        | true =>
          have := decodeRune_append ((b :: t).take k) ((b :: t).drop k)
            (not_error_of_isSpace hsp2) htake
          rw [List.take_append_drop] at this
          rw [this, hsp2] at h
          cases h
      · exact ⟨hx, h⟩

theorem trimRight_nil : trimRight [] = [] := rfl

theorem TrimSpace_eq_nil_iff (s : List Byte) : TrimSpace s = [] ↔ trimLeft s = [] := by
  constructor
  · intro h
    by_contra hne
    exact (trimRightAux_keeps _ _ hne (trimLeft_head_not_space s)).1 h
  · intro h
    unfold TrimSpace
    rw [h]
    rfl

theorem head_TrimSpace (s : List Byte) : (TrimSpace s).head? = (trimLeft s).head? := by
  by_cases h : trimLeft s = []
  · rw [(TrimSpace_eq_nil_iff s).mpr h, h]
  · have hne : TrimSpace s ≠ [] := fun e => h ((TrimSpace_eq_nil_iff s).mp e)
    obtain ⟨u, hu⟩ : TrimSpace s <+: trimLeft s := trimRightAux_prefix _ _
    cases hts : TrimSpace s with
    | nil => exact absurd hts hne
    | cons c r =>
      rw [← hu, hts]
      rfl

theorem isBlank_iff (s : List Byte) : isBlank s = true ↔ firstNonSpace s = none := by
  unfold isBlank firstNonSpace
  cases trimLeft s <;> simp

theorem isComment_iff (s : List Byte) : isComment s = true ↔ firstNonSpace s = some hash := by
  simp [isComment]

/-- An ASCII byte that is not white space, put after a string, is the first
non-space byte exactly when the string is blank. -/
theorem trimLeft_snoc_ascii (a : List Byte) (b : Byte) (hb : b.val < 0x80)
    (hsp : isSpace b.val = false) :
    trimLeft (a ++ [b]) = if trimLeft a = [] then [b] else trimLeft a ++ [b] := by
  induction a using byLength with
  | _ a ih =>
    by_cases ha : a = []
    · subst ha
      rw [trimLeft_nil, if_pos rfl, List.nil_append]
      apply trimLeft_of_not_space
      simp only [decodeRune, if_pos hb]
      exact hsp
    · have hdec := decodeRune_snoc_ascii a b ha hb
      rw [trimLeft_step (a ++ [b]) (by simp), trimLeft_step a ha, hdec]
      by_cases hs : isSpace (decodeRune a).1 = true
      · rw [if_pos hs, if_pos hs, List.drop_append_of_le_length (decodeRune_width_le a)]
        exact ih _ (drop_width_lt a ha)
      · rw [if_neg hs, if_neg hs, if_neg ha]

theorem firstNonSpace_snoc_ascii (a : List Byte) (b : Byte) (hb : b.val < 0x80)
    (hsp : isSpace b.val = false) :
    firstNonSpace (a ++ [b])
      = match firstNonSpace a with
        | some c => some c
        | none => some b := by
  unfold firstNonSpace
  rw [trimLeft_snoc_ascii a b hb hsp]
  cases h : trimLeft a with
  | nil => simp
  | cons c r => simp

/-! ## Facts about `Split`, prefixes and suffixes -/

theorem HasPrefix_hash (t : List Byte) : HasPrefix t [hash] = true ↔ t.head? = some hash := by
  cases t with
  | nil => simp [HasPrefix]
  | cons c r =>
    simp [HasPrefix, List.isPrefixOf]
    exact eq_comm

theorem HasSuffix_backslash (line : List Byte) :
    HasSuffix line [backslash] = true ↔ ∃ x, line = x ++ [backslash] := by
  unfold HasSuffix
  rw [List.isSuffixOf_iff_suffix]
  constructor
  · rintro ⟨x, hx⟩; exact ⟨x, hx.symm⟩
  · rintro ⟨x, hx⟩; exact ⟨x, hx.symm⟩

/-- The test of line 173 in terms of the first byte after the leading white
space: the line is skipped when it is blank or a comment. -/
theorem skip_iff (line : List Byte) :
    (TrimSpace line = [] ∨ HasPrefix (TrimSpace line) [hash] = true)
      ↔ (firstNonSpace line = none ∨ firstNonSpace line = some hash) := by
  rw [HasPrefix_hash, head_TrimSpace, TrimSpace_eq_nil_iff]
  unfold firstNonSpace
  cases trimLeft line <;> simp

theorem Split_no_newline (s : List Byte) (h : newline ∉ s) : Split s = [s] := by
  induction s with
  | nil => rfl
  | cons c s ih =>
    have hc : c ≠ newline := fun e => h (by simp [e])
    have hs : newline ∉ s := fun e => h (List.mem_cons_of_mem _ e)
    simp [Split, hc, ih hs]

theorem Split_append_newline (s t : List Byte) (h : newline ∉ s) :
    Split (s ++ newline :: t) = s :: Split t := by
  induction s with
  | nil => simp [Split]
  | cons c s ih =>
    have hc : c ≠ newline := fun e => h (by simp [e])
    have hs : newline ∉ s := fun e => h (List.mem_cons_of_mem _ e)
    simp [Split, hc, ih hs]

theorem lineStep_continued (acc : List (List Byte) × List Byte) (x : List Byte)
    (h : ¬ (firstNonSpace (x ++ [backslash]) = none ∨
            firstNonSpace (x ++ [backslash]) = some hash)) :
    lineStep acc (x ++ [backslash]) = (acc.1, acc.2 ++ x) := by
  unfold lineStep
  simp only
  rw [if_neg (fun hs => h ((skip_iff _).mp hs)),
    if_pos ((HasSuffix_backslash _).mpr ⟨x, rfl⟩), List.dropLast_concat]

theorem lineStep_join (acc : List (List Byte) × List Byte) (line : List Byte)
    (h : ¬ (firstNonSpace line = none ∨ firstNonSpace line = some hash))
    (hs : HasSuffix line [backslash] = false) (hl : acc.2 ≠ []) :
    lineStep acc line = (acc.1 ++ [acc.2 ++ line], []) := by
  unfold lineStep
  simp only
  rw [if_neg (fun hs => h ((skip_iff _).mp hs)), if_neg (by simp [hs]), if_pos hl]

theorem ValidString_nil : ValidString [] = true := rfl

/-- On bytes that are not valid UTF-8, joining continued lines can put
together a white-space character that neither line held: the lines `c2 5c`
and `a0 23 78` are joined to U+00A0 `#` `x`, a comment, and with `a0` alone
on the second line a blank element is returned that is not the last one. -/
theorem invalid_utf8_joins :
    ValidString [0xc2, 0x5c, 0x0a, 0xa0, 0x23, 0x78] = false ∧
    SplitScriptLines [0xc2, 0x5c, 0x0a, 0xa0, 0x23, 0x78] = [[0xc2, 0xa0, 0x23, 0x78]] ∧
    isComment [0xc2, 0xa0, 0x23, 0x78] = true ∧
    SplitScriptLines [0xc2, 0x5c, 0x0a, 0xa0, 0x0a, 0x78] = [[0xc2, 0xa0], [0x78]] ∧
    isBlank [0xc2, 0xa0] = true := by
  decide

/-- C10: for strings `a` and `b` without a newline, neither blank nor a
comment, `b` not ending with a backslash, `SplitScriptLines` applied to `a`,
a backslash, a newline and `b` returns the one-element list `[a ++ b]`. -/
theorem SplitScriptLines_joins_continued (a b : List Byte) (hna : newline ∉ a)
    (hnb : newline ∉ b) (hba : isBlank a = false) (hca : isComment a = false)
    (hbb : isBlank b = false) (hcb : isComment b = false)
    (hsb : HasSuffix b [backslash] = false) :
    SplitScriptLines (a ++ [backslash, newline] ++ b) = [a ++ b] := by
  have key : ∀ s : List Byte, isBlank s = false → isComment s = false →
      ∃ c, firstNonSpace s = some c ∧ c ≠ hash := by
    intro s hb hc
    cases hf : firstNonSpace s with
    | none => rw [(isBlank_iff s).mpr hf] at hb; cases hb
    | some c =>
      refine ⟨c, rfl, ?_⟩
      rintro rfl
      rw [(isComment_iff s).mpr hf] at hc
      cases hc
  obtain ⟨ca, hfa, hnea⟩ := key a hba hca
  obtain ⟨cb, hfb, hneb⟩ := key b hbb hcb
  have hane : a ≠ [] := by
    rintro rfl
    simp [firstNonSpace, trimLeft_nil] at hfa
  have hsplit : Split (a ++ [backslash, newline] ++ b) = [a ++ [backslash], b] := by
    have h1 : a ++ [backslash, newline] ++ b = (a ++ [backslash]) ++ newline :: b := by simp
    have h2 : newline ∉ a ++ [backslash] := by
      intro hmem
      rcases List.mem_append.mp hmem with hm | hm
      · exact hna hm
      · exact backslash_ne_newline (List.mem_singleton.mp hm).symm
    rw [h1, Split_append_newline _ _ h2, Split_no_newline b hnb]
  have hskipa : ¬ (firstNonSpace (a ++ [backslash]) = none ∨
      firstNonSpace (a ++ [backslash]) = some hash) := by
    rw [firstNonSpace_snoc_ascii a backslash (by decide) isSpace_backslash, hfa]
    simp [hnea]
  have hskipb : ¬ (firstNonSpace b = none ∨ firstNonSpace b = some hash) := by
    rw [hfb]
    simp [hneb]
  unfold SplitScriptLines
  simp only [hsplit, List.foldl_cons, List.foldl_nil]
  rw [lineStep_continued _ a hskipa]
  simp only [List.nil_append]
  rw [lineStep_join _ b hskipb hsb hane]
  simp

theorem SplitScriptLines_joins_continued_witness :
    newline ∉ ascii "echo " ∧ newline ∉ ascii " hi" ∧ isBlank (ascii "echo ") = false ∧
    isComment (ascii "echo ") = false ∧ isBlank (ascii " hi") = false ∧
    isComment (ascii " hi") = false ∧ HasSuffix (ascii " hi") [backslash] = false ∧
    SplitScriptLines (ascii "echo " ++ [backslash, newline] ++ ascii " hi")
      = [ascii "echo " ++ ascii " hi"] :=
  ⟨by decide, by decide, by decide, by decide, by decide, by decide, by decide,
    SplitScriptLines_joins_continued (ascii "echo ") (ascii " hi") (by decide) (by decide)
      (by decide) (by decide) (by decide) (by decide) (by decide)⟩

end gossh
